import Mathlib

/-!
Verification development for the esbuild plugin `singleModulesPlugin`
(repository `esbuild-plugin-single-modules`, file `src/index.ts`).

The TypeScript source is shallowly embedded:
pure path helpers (`reducePathLeft` and the used subset of `node:path`,
namely posix `join`, `normalize`, `dirname`, `parse(...).name`, `relative`)
become Lean functions; the stateful plugin hooks (`onResolve`, `onLoad`,
`onEnd`) become explicit state-passing functions over the closure state of
the plugin (`seenFiles`, `root` — shared across recursive build
invocations) and of one `setup` call (`filespecs`, `rewrittenImports` —
created afresh for every build invocation, since they are declared inside
`setup`).  JavaScript exceptions are modelled with `Except`; a handler that
throws still keeps the mutations it performed before throwing, so handlers
return their updated state alongside the `Except` result.
-/

namespace SingleModules

/-- Word for the directory separator used by the plugin (`sep` of
`node:path`, posix): the source assumes linux paths. -/
def dirsep : String := "/"

/-- Structural splitting of a character list at a separator character.
`String.split` of JavaScript on the one-character separator string `"/"`
behaves exactly like splitting at the character; we work on `String.data`
so that everything reduces in the kernel. -/
def splitOnCharList (c : Char) : List Char → List (List Char)
  | [] => [[]]
  | x :: xs =>
    match splitOnCharList c xs with
    | [] => [[]]
    | h :: t => if x = c then [] :: h :: t else (x :: h) :: t

/-- JavaScript `path.split(dirsep)` for `dirsep = "/"`. -/
def splitPath (path : String) : List String :=
  (splitOnCharList '/' path.data).map String.mk

/-- Whether a string starts with the given character; `path.startsWith(s)`
for a one-character string `s`. -/
def startsWithChar (s : String) (c : Char) : Bool :=
  match s.data with
  | [] => false
  | x :: _ => x = c

/-- Whether a string ends with the given character. -/
def endsWithChar (s : String) (c : Char) : Bool :=
  match s.data.getLast? with
  | some x => x = c
  | none => false

/-- JavaScript `Array.prototype.filter` with the element index made
explicit: `filterWithIndex p k l` keeps the elements of `l` whose index
(counted from `k`) satisfies `p`.  The source calls `filter` with a
`(_segment, index) => ...` callback, which is this function at `k = 0`. -/
def filterWithIndex {α : Type} (p : Nat → Bool) : Nat → List α → List α
  | _, [] => []
  | i, x :: xs => if p i then x :: filterWithIndex p (i + 1) xs else filterWithIndex p (i + 1) xs

/-- Errors thrown by the plugin (`throw new Error(...)` in the source). -/
inductive PluginError where
  | negativeSegments : PluginError
  | unsupportedKind (kind : String) : PluginError
  | rootUndetermined : PluginError
deriving DecidableEq, Repr

/-- Exact message strings of the errors thrown in `src/index.ts`. -/
def errorMessage : PluginError → String
  | .negativeSegments => "numSegments must not be negative!"
  | .unsupportedKind kind =>
      "Unknown import path type: \x22" ++ kind ++
        "\x22, expected \x22import-statement\x22 or \x22dynamic-import\x22"
  | .rootUndetermined => "Project root path couldn't be determined!"

/-- Embedding of `reducePathLeft` (src/index.ts lines 43-56).  The source
signature is `(path: string, numSegments: number = 0)`; the default
argument is 0.  It returns `path` unchanged for `numSegments === 0`,
throws for negative counts, and otherwise splits on the separator and
filters segments by index: for paths starting with the separator or with a
dot it keeps index 0 and the indices above `numSegments`; for bare
relative paths it keeps the indices above `numSegments - 1`. -/
def reducePathLeft (path : String) (numSegments : Int) : Except PluginError String :=
  if numSegments = 0 then .ok path
  else if numSegments < 0 then .error .negativeSegments
  else
    let segments := splitPath path
    if startsWithChar path '/' || startsWithChar path '.' then
      .ok (String.intercalate dirsep
        (filterWithIndex (fun index => index == 0 || decide (numSegments < (index : Int))) 0 segments))
    else
      .ok (String.intercalate dirsep
        (filterWithIndex (fun index => decide (numSegments - 1 < (index : Int))) 0 segments))

/-- Modelled from the spec's words (§4.1, §8) for comparison with
`reducePathLeft`: split on the separator; when the path is absolute or
starts with a dot, keep the leading marker segment and drop the `n`
segments after it; otherwise drop the first `n` segments; rejoin. -/
def reducePathLeftSpec (path : String) (n : Nat) : String :=
  let segments := splitPath path
  if startsWithChar path '/' || startsWithChar path '.' then
    String.intercalate dirsep (segments.take 1 ++ segments.drop (n + 1))
  else
    String.intercalate dirsep (segments.drop n)

/-- One step of posix path normalization: fold a segment onto the stack of
kept segments, resolving `..` against it (popping, unless the stack is
empty or itself ends in `..`; for absolute paths a leading `..` is
discarded). -/
def normSegStep (isAbs : Bool) (acc : List String) (seg : String) : List String :=
  if seg = ".." then
    if acc ≠ [] ∧ acc.getLast? ≠ some ".." then acc.dropLast
    else if isAbs then acc
    else acc ++ [".."]
  else acc ++ [seg]

/-- Model of `node:path` posix `normalize`: collapse duplicate separators,
resolve `.` and `..` segments, keep a leading separator and a trailing
separator when present. -/
def pathNormalize (p : String) : String :=
  if p = "" then "."
  else
    let isAbs := startsWithChar p '/'
    let trailing := endsWithChar p '/'
    let segs := (splitPath p).filter (fun s => decide (s ≠ "") && decide (s ≠ "."))
    let stack := segs.foldl (normSegStep isAbs) []
    let body := String.intercalate "/" stack
    if isAbs then
      if body = "" then "/" else "/" ++ body ++ (if trailing then "/" else "")
    else
      if body = "" then (if trailing then "./" else ".") else body ++ (if trailing then "/" else "")

/-- Model of `node:path` posix `join` for two arguments, as used at
src/index.ts lines 129 and 146: concatenate the non-empty parts with the
separator and normalize; the join of empty parts is `"."`. -/
def pathJoin (a b : String) : String :=
  let parts := [a, b].filter (fun s => decide (s ≠ ""))
  if parts = [] then "." else pathNormalize (String.intercalate "/" parts)

/-- Model of `node:path` posix `dirname`: drop trailing separators, then
drop the last component; a path without separators has dirname `"."`, and
a root-only path has dirname `"/"`. -/
def pathDirname (p : String) : String :=
  if p = "" then "."
  else
    let trimmed := ((p.data.reverse.dropWhile (fun c => decide (c = '/'))).reverse)
    if trimmed = [] then "/"
    else
      let pre := (trimmed.reverse.dropWhile (fun c => decide (c ≠ '/'))).reverse
      if pre = [] then "."
      else
        let pre2 := (pre.reverse.dropWhile (fun c => decide (c = '/'))).reverse
        if pre2 = [] then "/" else String.mk pre2

/-- Model of `node:path` posix `parse(p).name`: the last path component
with its final extension removed; a dot as the first character of the
component (or the component `".."`) starts no extension. -/
def parseName (p : String) : String :=
  let base := (p.data.reverse.takeWhile (fun c => decide (c ≠ '/'))).reverse
  if base = ['.', '.'] then ".."
  else
    match (List.reverse base).findIdx? (fun c => decide (c = '.')) with
    | none => String.mk base
    | some j =>
      let dotIdx := base.length - 1 - j
      if dotIdx = 0 then String.mk base else String.mk (base.take dotIdx)

/-- Length of the common prefix of two segment lists. -/
def commonSegs : List String → List String → Nat
  | a :: as, b :: bs => if a = b then commonSegs as bs + 1 else 0
  | _, _ => 0

/-- Model of `node:path` posix `relative` for the absolute arguments the
plugin passes (`relative(root, file)` at src/index.ts line 139): normalize
both paths, drop their common leading segments, climb out of what remains
of the first and descend into what remains of the second. -/
def pathRelative (f t : String) : String :=
  let fs := (splitPath (pathNormalize f)).filter (fun s => decide (s ≠ ""))
  let ts := (splitPath (pathNormalize t)).filter (fun s => decide (s ≠ ""))
  let common := commonSegs fs ts
  String.intercalate "/" (List.replicate (fs.length - common) ".." ++ ts.drop common)

/-- Test of the conclusion of the import regex `IMPORT_PATTERN` that the
rewrite step relies on: its second capture group always ends in the
literal characters `".js"` (the pattern is anchored on the group `(\.js)`).
Working on `String.data` keeps the definition kernel-reducible. -/
def jsSuffix (s : String) : Bool :=
  match s.data.reverse with
  | c1 :: c2 :: c3 :: _ => c1 == 's' && c2 == 'j' && c3 == '.'
  | _ => false

/-- Embedding of `importFile.replace(/\.js$/, destExt)` (src/index.ts line
188): replace a final `".js"` by `destExt`, otherwise leave the string
unchanged. -/
def replaceJsExt (s destExt : String) : String :=
  if jsSuffix s then String.mk (s.data.take (s.data.length - 3) ++ destExt.data) else s

/-- Lookup in a JavaScript `Map` with string keys, modelled as an
association list in insertion order: `m.get(k)`. -/
def mapGet (m : List (String × String)) (k : String) : Option String :=
  (m.find? (fun p => decide (p.1 = k))).map Prod.snd

/-- Update of a JavaScript `Map` with string keys: `m.set(k, v)` overwrites
an existing entry for `k` in place and otherwise appends a new entry. -/
def mapSet (m : List (String × String)) (k v : String) : List (String × String) :=
  if m.any (fun p => decide (p.1 = k)) then
    m.map (fun p => if p.1 = k then (k, v) else p)
  else m ++ [(k, v)]

/-- Plugin configuration (`singleModulesPluginOptions` plus the only part
of the build options the plugin inspects): `numLevelsInputPathToDrop` and
`transformImportExtensions` are the plugin options of those names;
`outExtensionJs` is the entry of the host's `outExtension` map for the key
`".js"` (or `none` when absent), which gates registration of the `onLoad`
hook.  The `filter` option only restricts which host events reach the
hooks and is left to the host. -/
structure Config where
  numLevelsInputPathToDrop : Option Int
  transformImportExtensions : Bool
  outExtensionJs : Option String
deriving Repr

/-- State captured by the `singleModulesPlugin` closure itself
(src/index.ts lines 66-68), shared by every build invocation of the
session: the `seenFiles` set (as a list without duplicates, insertion
order) and the optional `root` directory. -/
structure SharedState where
  seenFiles : List String
  root : Option String
deriving DecidableEq, Repr

/-- An input/output pair pushed for a later build (`filespecs` elements,
`{ in, out }` in the source; `in` is a reserved word in Lean, so the
fields are `inp` and `out`). -/
structure FileSpec where
  inp : String
  out : String
deriving DecidableEq, Repr

/-- State created afresh by each `setup` call (src/index.ts lines 96-98),
so scoped to a single build invocation: the pending `filespecs` batch and
the `rewrittenImports` map. -/
structure PassState where
  filespecs : List FileSpec
  rewrittenImports : List (String × String)
deriving DecidableEq, Repr

/-- The arguments of a resolution event delivered to the `onResolve`
hook: `kind`, `path`, `importer` and `resolveDir`. -/
structure ResolveArgs where
  kind : String
  path : String
  importer : String
  resolveDir : String
deriving DecidableEq, Repr

/-- The non-default resolution result the interceptor can return:
`{ external: true }`.  Returning `undefined` (host default resolution) is
modelled by `none` at type `Option ResolveResult`. -/
inductive ResolveResult where
  | externalTrue : ResolveResult
deriving DecidableEq, Repr

/-- Everything one `onResolve` call produces: the updated shared and pass
state, the result (or thrown error), and an observation `pushed` listing,
for the single `filespecs.push` the call can perform, the absolute `file`
identity that was being scheduled together with the pushed spec.  A throw
does not roll back mutations already made, so the states are meaningful
also when `result` is an error. -/
structure ResolveOutcome where
  shared : SharedState
  pass : PassState
  pushed : List (String × FileSpec)
  result : Except PluginError (Option ResolveResult)

/-- The import path after the reverse lookup of the Specifier Rewrite Map
(src/index.ts lines 121-126): with `transformImportExtensions` enabled,
an entry of `rewrittenImports` under the key `importer + "|" + path`
replaces the path by the recorded original. -/
def effectivePath (cfg : Config) (ps : PassState) (args : ResolveArgs) : String :=
  if cfg.transformImportExtensions then
    match mapGet ps.rewrittenImports (args.importer ++ "|" ++ args.path) with
    | some origPath => origPath
    | none => args.path
  else args.path

/-- The absolute module identity `join(args.resolveDir, args.path)`
computed at src/index.ts line 129 (after the reverse lookup). -/
def resolvedFile (cfg : Config) (ps : PassState) (args : ResolveArgs) : String :=
  pathJoin args.resolveDir (effectivePath cfg ps args)

/-- The `seenFiles.add(file)` mutation (src/index.ts line 133). -/
def addSeen (st : SharedState) (file : String) : SharedState :=
  { st with seenFiles := st.seenFiles ++ [file] }

/-- The relative input path of a scheduled module: `"./" + relative(root,
file)` (src/index.ts lines 139 and 145). -/
def relInputOf (r file : String) : String :=
  "./" ++ pathRelative r file

/-- The `{ in, out }` spec pushed for a scheduled module (src/index.ts
lines 145-149): input is the root-relative path, output joins the reduced
input directory with the input's base name without extension. -/
def outputSpec (r file relInputDir : String) : FileSpec :=
  { inp := relInputOf r file,
    out := pathJoin relInputDir (parseName (relInputOf r file)) }

/-- Embedding of the `onResolve` handler (src/index.ts lines 100-154).
Entry points capture the root (first one only) and defer to the host.
Kinds other than `import-statement` and `dynamic-import` throw.  Supported imports
compute the module identity `resolvedFile`; an unseen identity is
added to `seenFiles`, then the root is required, the input directory is
reduced with `reducePathLeft` applied to `dirname(relative(root, file))`,
and the resulting spec is pushed onto `filespecs`.  Every non-throwing
supported import returns `{ external: true }`. -/
def onResolve (cfg : Config) (st : SharedState) (ps : PassState) (args : ResolveArgs) :
    ResolveOutcome :=
  if args.kind = "entry-point" then
    { shared := if st.root = none then { st with root := some args.resolveDir } else st,
      pass := ps, pushed := [], result := .ok none }
  else if args.kind ≠ "import-statement" ∧ args.kind ≠ "dynamic-import" then
    { shared := st, pass := ps, pushed := [],
      result := .error (.unsupportedKind args.kind) }
  else if resolvedFile cfg ps args ∈ st.seenFiles then
    { shared := st, pass := ps, pushed := [], result := .ok (some .externalTrue) }
  else
    match st.root with
    | none =>
      { shared := addSeen st (resolvedFile cfg ps args), pass := ps, pushed := [],
        result := .error .rootUndetermined }
    | some r =>
      match reducePathLeft (pathDirname (pathRelative r (resolvedFile cfg ps args)))
          (cfg.numLevelsInputPathToDrop.getD 0) with
      | .error e =>
        { shared := addSeen st (resolvedFile cfg ps args), pass := ps, pushed := [],
          result := .error e }
      | .ok relInputDir =>
        { shared := addSeen st (resolvedFile cfg ps args),
          pass := { ps with filespecs :=
            ps.filespecs ++ [outputSpec r (resolvedFile cfg ps args) relInputDir] },
          pushed := [(resolvedFile cfg ps args, outputSpec r (resolvedFile cfg ps args) relInputDir)],
          result := .ok (some .externalTrue) }

/-- The `rewrittenImports.set` calls performed by one `onLoad` invocation
(src/index.ts lines 186-195) on the underlying map: for each matched import
specifier `g` of the loaded file `filePath`, record the reverse
mapping `filePath + "|" + replaceJsExt g destExt` to `g`.  The textual
rewriting of the returned contents is orthogonal to the recorded map and
is not needed by any claim. -/
def recordMap (destExt filePath : String) (importFiles : List String)
    (m : List (String × String)) : List (String × String) :=
  importFiles.foldl
    (fun m2 g => mapSet m2 (filePath ++ "|" ++ replaceJsExt g destExt) g) m

/-- Effect of loading `filePath` on the pass state: the `onLoad` hook is
registered only when `transformImportExtensions` is set and the host's
`outExtension` maps `".js"` to something different (src/index.ts lines
168-173); otherwise loading records nothing.  `importFiles` lists the
specifiers matched by `IMPORT_PATTERN` in the file's contents. -/
def loadStep (cfg : Config) (filePath : String) (importFiles : List String)
    (ps : PassState) : PassState :=
  match cfg.outExtensionJs with
  | some destExt =>
    if cfg.transformImportExtensions ∧ destExt ≠ ".js" then
      { ps with rewrittenImports := recordMap destExt filePath importFiles ps.rewrittenImports }
    else ps
  | none => ps

/-- A host event delivered to the plugin during one build invocation:
either a resolution event or the load of a file (with the import
specifiers its contents match against `IMPORT_PATTERN`). -/
inductive Event where
  | resolve (args : ResolveArgs) : Event
  | load (filePath : String) (importFiles : List String) : Event
deriving DecidableEq, Repr

/-- Result of running the events of one build invocation. -/
structure PassRun where
  shared : SharedState
  pass : PassState
  trace : List (String × FileSpec)
  err : Option PluginError

/-- Sequential processing of one invocation's events.  An error thrown by
a hook is never caught, fails the build, and stops the run; the state
mutated before the throw is kept.  `trace` concatenates the `pushed`
observations of all processed resolutions. -/
def runPass (cfg : Config) : SharedState → PassState → List Event → PassRun
  | st, ps, [] => { shared := st, pass := ps, trace := [], err := none }
  | st, ps, .load filePath importFiles :: rest =>
    runPass cfg st (loadStep cfg filePath importFiles ps) rest
  | st, ps, .resolve args :: rest =>
    let o := onResolve cfg st ps args
    match o.result with
    | .error e => { shared := o.shared, pass := o.pass, trace := o.pushed, err := some e }
    | .ok _ =>
      let r := runPass cfg o.shared o.pass rest
      { shared := r.shared, pass := r.pass, trace := o.pushed ++ r.trace, err := r.err }

/-- The pass state a new `setup` call creates: empty `filespecs`, empty
`rewrittenImports` (both are declared inside `setup`,
src/index.ts lines 96-98). -/
def freshPass : PassState := { filespecs := [], rewrittenImports := [] }

/-- The shared closure state at plugin creation: no file seen, no root. -/
def initShared : SharedState := { seenFiles := [], root := none }

/-- Result of running a whole session (the top-level invocation and its
recursive sub-invocations, each given by its event list). -/
structure SessionRun where
  shared : SharedState
  passes : List PassState
  trace : List (String × FileSpec)
  err : Option PluginError

/-- Sequential processing of a session's build invocations.  The closure
state (`seenFiles`, `root`) is threaded through; every invocation starts
from the pass state its own `setup` call creates.  A failed pass fails the
whole session. -/
def runSession (cfg : Config) : SharedState → List (List Event) → SessionRun
  | st, [] => { shared := st, passes := [], trace := [], err := none }
  | st, evs :: rest =>
    let r := runPass cfg st freshPass evs
    match r.err with
    | some e => { shared := r.shared, passes := [r.pass], trace := r.trace, err := some e }
    | none =>
      let s := runSession cfg r.shared rest
      { shared := s.shared, passes := r.pass :: s.passes, trace := r.trace ++ s.trace,
        err := s.err }

/-- The entry-point list of a build configuration: the host accepts plain
path strings or `{ in, out }` pairs. -/
inductive EntryPoints where
  | strings (paths : List String) : EntryPoints
  | specs (pairs : List FileSpec) : EntryPoints
deriving DecidableEq, Repr

/-- The build options relevant to the plugin: the entry-point list, the
`".js"` entry of `outExtension`, and all remaining host options bundled
into an opaque-to-the-plugin `rest` component of arbitrary type.  The
snapshot `const options = { ...build.initialOptions }` taken at setup
(src/index.ts line 74) is a shallow copy, i.e. the identity on this
data. -/
structure BuildOptions (ρ : Type) where
  entryPoints : EntryPoints
  outExtensionJs : Option String
  rest : ρ

/-- Embedding of the `onEnd` handler (src/index.ts lines 157-165): when
the pending batch is non-empty, issue exactly one recursive build whose
configuration is the setup-time snapshot with only `entryPoints` replaced
by the batch (`{ ...options, entryPoints: filespecs }`), and await it;
when the batch is empty, do nothing.  `none` means no recursive
invocation; `some o` is the configuration of the single awaited one. -/
def onEnd {ρ : Type} (options : BuildOptions ρ) (filespecs : List FileSpec) :
    Option (BuildOptions ρ) :=
  if 0 < filespecs.length then
    some { options with entryPoints := .specs filespecs }
  else none

/-- Shared closure states reachable by the sequential hook protocol from
plugin creation.  Only `onResolve` ever mutates the shared state; a call
whose result is a thrown error fails the build, so it does not extend the
reachable set. -/
inductive ReachableShared (cfg : Config) : SharedState → Prop where
  | init : ReachableShared cfg initShared
  | step (st : SharedState) (ps : PassState) (args : ResolveArgs)
      (h : ReachableShared cfg st)
      (hok : ∃ r, (onResolve cfg st ps args).result = .ok r) :
      ReachableShared cfg (onResolve cfg st ps args).shared

/-- The character-list segment of a string after its last pipe character;
extracts the rewritten-specifier component of a `rewrittenImports` key
`importer + "|" + specifier` whenever the specifier itself contains no
pipe. -/
def afterLastPipe (l : List Char) : List Char :=
  (l.reverse.takeWhile (fun c => decide (c ≠ '|'))).reverse

/-- Shape of the entries `rewrittenImports` can contain: the recorded
original specifier ends in `".js"` (guaranteed by `IMPORT_PATTERN`),
contains no pipe, and the key ends, after its last pipe, in the rewrite of
that original. -/
def entryWF (d : String) (p : String × String) : Prop :=
  jsSuffix p.2 = true ∧ '|' ∉ p.2.data ∧
    afterLastPipe p.1.data = (replaceJsExt p.2 d).data

/-- All entries of a map are well shaped for destination extension `d`. -/
def MapWF (d : String) (m : List (String × String)) : Prop := ∀ p ∈ m, entryWF d p

/-- `MapWF` for whatever destination extension the configuration holds. -/
def passMapWF (cfg : Config) (m : List (String × String)) : Prop :=
  ∀ d, cfg.outExtensionJs = some d → MapWF d m

/-- The specifiers delivered by load events end in `".js"` (what the import
pattern matches) and contain no pipe character. -/
def eventsWF (evs : List Event) : Prop :=
  ∀ fp imports, Event.load fp imports ∈ evs →
    ∀ g ∈ imports, jsSuffix g = true ∧ '|' ∉ g.data

theorem filterWithIndex_congr {α : Type} {p q : Nat → Bool} :
    ∀ (l : List α) (k : Nat), (∀ i, k ≤ i → p i = q i) →
      filterWithIndex p k l = filterWithIndex q k l := by
  intro l
  induction l with
  | nil => intro k h; rfl
  | cons x xs ih =>
    intro k h
    simp only [filterWithIndex]
    rw [h k (Nat.le_refl k), ih (k + 1) (fun i hi => h i (Nat.le_of_succ_le hi))]

theorem filterWithIndex_drop {α : Type} (n : Nat) :
    ∀ (l : List α) (k : Nat),
      filterWithIndex (fun i => decide (n ≤ i)) k l = l.drop (n - k) := by
  intro l
  induction l with
  | nil => intro k; simp [filterWithIndex]
  | cons x xs ih =>
    intro k
    simp only [filterWithIndex]
    by_cases h : n ≤ k
    · have h0 : n - k = 0 := Nat.sub_eq_zero_of_le h
      have h1 : n - (k + 1) = 0 := Nat.sub_eq_zero_of_le (Nat.le_succ_of_le h)
      simp [h, ih, h0, h1]
    · have hk : k < n := Nat.lt_of_not_le h
      have hs : n - k = (n - (k + 1)) + 1 := by omega
      simp only [decide_eq_true_eq, h, if_false, ih, hs, List.drop_succ_cons]

theorem filterWithIndex_keep_head {α : Type} (n : Nat) (l : List α) :
    filterWithIndex (fun i => i == 0 || decide (n < (i : Int))) 0 l =
      l.take 1 ++ l.drop (n + 1) := by
  cases l with
  | nil => simp [filterWithIndex]
  | cons x xs =>
    simp only [filterWithIndex]
    have hcong : filterWithIndex (fun i => i == 0 || decide (n < (i : Int))) 1 xs =
        filterWithIndex (fun i => decide (n + 1 ≤ i)) 1 xs := by
      apply filterWithIndex_congr
      intro i hi
      have h0 : (i == 0) = false := by
        simp only [beq_eq_false_iff_ne, ne_eq]
        omega
      rw [h0]
      simp only [Bool.false_or]
      congr 1
      simp only [eq_iff_iff]
      omega
    rw [hcong, filterWithIndex_drop]
    have harith : n + 1 - 1 = n := by omega
    simp [harith]

/-- Claim C3: for positive `n`, `reducePathLeft` splits on the separator,
preserves the leading marker segment of an absolute or dot-leading path
while dropping the `n` segments after it, drops the first `n` segments of
a bare relative path, and rejoins with the separator; at count 0 it is the
identity. -/
theorem reducePathLeft_matches_spec (path : String) (n : Nat) :
    reducePathLeft path 0 = .ok path ∧
      (0 < n → reducePathLeft path (n : Int) = .ok (reducePathLeftSpec path n)) := by
  constructor
  · rfl
  · intro hn
    have hne : (n : Int) ≠ 0 := by
      simp only [ne_eq, Int.natCast_eq_zero]
      omega
    have hnneg : ¬((n : Int) < 0) := by
      simp only [not_lt]
      exact Int.natCast_nonneg n
    unfold reducePathLeft reducePathLeftSpec
    simp only [hne, hnneg, if_false]
    by_cases habs : (startsWithChar path '/' || startsWithChar path '.') = true
    · simp only [habs, if_true, filterWithIndex_keep_head]
    · have hcong : filterWithIndex (fun index => decide ((n : Int) - 1 < (index : Int))) 0
            (splitPath path) =
          filterWithIndex (fun index => decide (n ≤ index)) 0 (splitPath path) := by
        apply filterWithIndex_congr
        intro i _
        congr 1
        simp only [eq_iff_iff]
        omega
      simp only [habs, if_false, hcong, filterWithIndex_drop, Nat.sub_zero]
      simp

/-- Witness for C3: evaluation at the source's own doc-comment example,
dropping two segments. -/
theorem reducePathLeft_matches_spec_witness :
    (0 : Nat) < 2 ∧
      reducePathLeft "/a/b/c/d" 0 = .ok "/a/b/c/d" ∧
      reducePathLeft "/a/b/c/d" ((2 : Nat) : Int) = .ok (reducePathLeftSpec "/a/b/c/d" 2) ∧
      reducePathLeftSpec "/a/b/c/d" 2 = "/c/d" ∧
      reducePathLeftSpec "./a/b/c/d" 2 = "./c/d" ∧
      reducePathLeftSpec "a/b/c/d" 2 = "c/d" := by
  refine ⟨by decide, (reducePathLeft_matches_spec "/a/b/c/d" 2).1,
    (reducePathLeft_matches_spec "/a/b/c/d" 2).2 (by decide), by decide, by decide, by decide⟩

theorem reducePathLeft_error_eq {path : String} {n : Int} {e : PluginError}
    (h : reducePathLeft path n = .error e) : e = .negativeSegments := by
  unfold reducePathLeft at h
  split_ifs at h
  all_goals simp_all

/-- Claim C8: a negative segment count makes `reducePathLeft` fail with
the configuration error, for every input path; and the error propagates
uncaught out of the resolution hook that calls `reducePathLeft` (shown for
any supported import resolution that reaches the path computation). -/
theorem reducePathLeft_negative_fails (path : String) (n : Int) (hn : n < 0) :
    reducePathLeft path n = .error .negativeSegments ∧
      errorMessage .negativeSegments = "numSegments must not be negative!" ∧
      ∀ (cfg : Config) (st : SharedState) (ps : PassState) (args : ResolveArgs) (r : String),
        cfg.numLevelsInputPathToDrop = some n →
        (args.kind = "import-statement" ∨ args.kind = "dynamic-import") →
        st.root = some r →
        resolvedFile cfg ps args ∉ st.seenFiles →
        (onResolve cfg st ps args).result = .error .negativeSegments := by
  have hne : n ≠ 0 := by omega
  have hred : reducePathLeft path n = .error .negativeSegments := by
    unfold reducePathLeft
    simp [hne, hn]
  refine ⟨hred, rfl, ?_⟩
  intro cfg st ps args r hcfg hkind hroot hseen
  have hk1 : args.kind ≠ "entry-point" := by
    rcases hkind with h | h <;> simp [h]
  have hk2 : ¬(args.kind ≠ "import-statement" ∧ args.kind ≠ "dynamic-import") := by
    rcases hkind with h | h <;> simp [h]
  have hredAny : ∀ p : String, reducePathLeft p (cfg.numLevelsInputPathToDrop.getD 0) =
      .error .negativeSegments := by
    intro p
    rw [hcfg]
    unfold reducePathLeft
    simp only [Option.getD_some]
    simp [hne, hn]
  unfold onResolve
  rw [if_neg hk1, if_neg hk2]
  simp only [hseen, if_neg, hroot, hredAny]
  simp

/-- Witness for C8 at path `"/a/b"` and count `-1`. -/
theorem reducePathLeft_negative_fails_witness :
    reducePathLeft "/a/b" (-1) = .error .negativeSegments ∧
      (onResolve ⟨some (-1), false, none⟩ ⟨[], some "/r"⟩ freshPass
        ⟨"import-statement", "./u.js", "/r/e.ts", "/r"⟩).result =
        .error .negativeSegments := by
  have h := reducePathLeft_negative_fails "/a/b" (-1) (by decide)
  exact ⟨h.1, h.2.2 _ _ _ _ "/r" rfl (Or.inl rfl) rfl (by decide)⟩

theorem kind_ne_of_supported {k : String}
    (h : k = "import-statement" ∨ k = "dynamic-import") :
    k ≠ "entry-point" ∧ ¬(k ≠ "import-statement" ∧ k ≠ "dynamic-import") := by
  rcases h with h | h
  all_goals subst h
  all_goals exact ⟨by decide, by simp⟩

theorem onResolve_supported_result (cfg : Config) (st : SharedState) (ps : PassState)
    (args : ResolveArgs)
    (h : args.kind = "import-statement" ∨ args.kind = "dynamic-import") :
    (onResolve cfg st ps args).result = .ok (some .externalTrue) ∨
      (onResolve cfg st ps args).result = .error .rootUndetermined ∨
      (onResolve cfg st ps args).result = .error .negativeSegments := by
  obtain ⟨h1, h2⟩ := kind_ne_of_supported h
  unfold onResolve
  rw [if_neg h1, if_neg h2]
  by_cases hseen : resolvedFile cfg ps args ∈ st.seenFiles
  · rw [if_pos hseen]
    exact Or.inl rfl
  · rw [if_neg hseen]
    cases hroot : st.root with
    | none => exact Or.inr (Or.inl rfl)
    | some r =>
      cases hred : reducePathLeft (pathDirname (pathRelative r (resolvedFile cfg ps args)))
          (cfg.numLevelsInputPathToDrop.getD 0) with
      | error e =>
        have he := reducePathLeft_error_eq hred
        subst he
        simp only [hred]
        exact Or.inr (Or.inr trivial)
      | ok relInputDir =>
        simp only [hred]
        exact Or.inl trivial

/-- Claim C6: a resolution event whose kind is outside
`{entry-point, import-statement, dynamic-import}` makes the interceptor
fail with the unsupported-import-kind error, and an event whose kind is in
that set never produces that error. -/
theorem unsupported_kind_fails (cfg : Config) (st : SharedState) (ps : PassState)
    (args : ResolveArgs) :
    (args.kind ≠ "entry-point" → args.kind ≠ "import-statement" →
      args.kind ≠ "dynamic-import" →
      (onResolve cfg st ps args).result = .error (.unsupportedKind args.kind)) ∧
    ((args.kind = "entry-point" ∨ args.kind = "import-statement" ∨
        args.kind = "dynamic-import") →
      ∀ k : String, (onResolve cfg st ps args).result ≠ .error (.unsupportedKind k)) := by
  constructor
  · intro h1 h2 h3
    unfold onResolve
    rw [if_neg h1, if_pos ⟨h2, h3⟩]
  · intro hin k
    rcases hin with h | h
    · unfold onResolve
      rw [if_pos h]
      simp
    · rcases onResolve_supported_result cfg st ps args h with hr | hr | hr
      all_goals rw [hr]
      all_goals simp

/-- Witness for C6: the kind `"require-call"` fails with the
unsupported-kind error, while `"dynamic-import"` does not produce it. -/
theorem unsupported_kind_fails_witness :
    (onResolve ⟨none, false, none⟩ ⟨[], some "/r"⟩ freshPass
        ⟨"require-call", "./u.js", "/r/e.ts", "/r"⟩).result =
      .error (.unsupportedKind "require-call") ∧
    (onResolve ⟨none, false, none⟩ ⟨[], some "/r"⟩ freshPass
        ⟨"dynamic-import", "./u.js", "/r/e.ts", "/r"⟩).result ≠
      .error (.unsupportedKind "dynamic-import") := by
  constructor
  · exact (unsupported_kind_fails ⟨none, false, none⟩ ⟨[], some "/r"⟩ freshPass
      ⟨"require-call", "./u.js", "/r/e.ts", "/r"⟩).1 (by decide) (by decide) (by decide)
  · exact (unsupported_kind_fails ⟨none, false, none⟩ ⟨[], some "/r"⟩ freshPass
      ⟨"dynamic-import", "./u.js", "/r/e.ts", "/r"⟩).2 (Or.inr (Or.inr rfl))
      "dynamic-import"

/-- Claim C7: an entry-point resolution schedules nothing, leaves the pass
state untouched, returns no override (the host's default resolution
proceeds), and assigns the root from the event's resolve directory exactly
when no root has been captured yet, leaving an already captured root
unchanged. -/
theorem entry_point_behaviour (cfg : Config) (st : SharedState) (ps : PassState)
    (args : ResolveArgs) (h : args.kind = "entry-point") :
    (onResolve cfg st ps args).result = .ok none ∧
      (onResolve cfg st ps args).pushed = [] ∧
      (onResolve cfg st ps args).pass = ps ∧
      (onResolve cfg st ps args).shared.seenFiles = st.seenFiles ∧
      (onResolve cfg st ps args).shared.root =
        (if st.root = none then some args.resolveDir else st.root) := by
  unfold onResolve
  rw [if_pos h]
  refine ⟨rfl, rfl, rfl, ?_, ?_⟩
  all_goals by_cases hr : st.root = none
  all_goals simp [hr]

/-- Witness for C7: the first entry point of a session captures the root,
a second entry point with a different resolve directory leaves it. -/
theorem entry_point_behaviour_witness :
    (onResolve ⟨none, false, none⟩ initShared freshPass
        ⟨"entry-point", "./src/e.ts", "", "/r"⟩).shared.root = some "/r" ∧
    (onResolve ⟨none, false, none⟩ ⟨[], some "/r"⟩ freshPass
        ⟨"entry-point", "./other.ts", "", "/elsewhere"⟩).shared.root = some "/r" ∧
    (onResolve ⟨none, false, none⟩ initShared freshPass
        ⟨"entry-point", "./src/e.ts", "", "/r"⟩).result = .ok none := by
  have h1 := entry_point_behaviour ⟨none, false, none⟩ initShared freshPass
    ⟨"entry-point", "./src/e.ts", "", "/r"⟩ rfl
  have h2 := entry_point_behaviour ⟨none, false, none⟩ ⟨[], some "/r"⟩ freshPass
    ⟨"entry-point", "./other.ts", "", "/elsewhere"⟩ rfl
  refine ⟨?_, ?_, h1.1⟩
  · rw [h1.2.2.2.2]
    decide
  · rw [h2.2.2.2.2]
    decide

/-- Claim C10: the root-undetermined failure is not atomic.  A supported import
resolution of an unseen identity with the root still unset throws
the root-undetermined error only after inserting the identity into
`seenFiles`; a second resolution of the same identity in that state does
not throw but returns the external marker, scheduling nothing. -/
theorem root_failure_not_atomic (cfg : Config) (st : SharedState) (ps : PassState)
    (args : ResolveArgs)
    (hkind : args.kind = "import-statement" ∨ args.kind = "dynamic-import")
    (hroot : st.root = none)
    (hseen : resolvedFile cfg ps args ∉ st.seenFiles) :
    (onResolve cfg st ps args).result = .error .rootUndetermined ∧
      resolvedFile cfg ps args ∈ (onResolve cfg st ps args).shared.seenFiles ∧
      (onResolve cfg (onResolve cfg st ps args).shared ps args).result =
        .ok (some .externalTrue) ∧
      (onResolve cfg (onResolve cfg st ps args).shared ps args).pushed = [] := by
  obtain ⟨h1, h2⟩ := kind_ne_of_supported hkind
  have hfirst : onResolve cfg st ps args =
      { shared := addSeen st (resolvedFile cfg ps args), pass := ps, pushed := [],
        result := .error .rootUndetermined } := by
    unfold onResolve
    rw [if_neg h1, if_neg h2, if_neg hseen, hroot]
  have hmem : resolvedFile cfg ps args ∈ (addSeen st (resolvedFile cfg ps args)).seenFiles := by
    simp [addSeen]
  refine ⟨by rw [hfirst], by rw [hfirst]; exact hmem, ?_, ?_⟩
  all_goals rw [hfirst]
  all_goals unfold onResolve
  all_goals rw [if_neg h1, if_neg h2, if_pos hmem]

/-- Witness for C10 with a dynamic import of `./u.js` from `/r` before any
entry point has been seen. -/
theorem root_failure_not_atomic_witness :
    (onResolve ⟨none, false, none⟩ initShared freshPass
        ⟨"dynamic-import", "./u.js", "/r/e.ts", "/r"⟩).result =
      .error .rootUndetermined ∧
    (onResolve ⟨none, false, none⟩
        (onResolve ⟨none, false, none⟩ initShared freshPass
          ⟨"dynamic-import", "./u.js", "/r/e.ts", "/r"⟩).shared freshPass
        ⟨"dynamic-import", "./u.js", "/r/e.ts", "/r"⟩).result =
      .ok (some .externalTrue) := by
  have h := root_failure_not_atomic ⟨none, false, none⟩ initShared freshPass
    ⟨"dynamic-import", "./u.js", "/r/e.ts", "/r"⟩ (Or.inr rfl) rfl (by decide)
  exact ⟨h.1, h.2.2.1⟩

/-- Claim C4: the pass scheduler issues exactly one recursive build, with
the setup-time options snapshot changed only in its entry-point list, if
and only if the pending batch is non-empty; an empty batch issues none. -/
theorem pass_scheduler_iff {ρ : Type} (options : BuildOptions ρ) (fs : List FileSpec) :
    (fs ≠ [] → onEnd options fs =
      some ⟨.specs fs, options.outExtensionJs, options.rest⟩) ∧
    (fs = [] → onEnd options fs = none) := by
  constructor
  · intro hne
    unfold onEnd
    rw [if_pos (by cases fs with | nil => exact absurd rfl hne | cons a l => simp)]
  · intro he
    subst he
    rfl

/-- Witness for C4 over options with a distinguishable `rest` component. -/
theorem pass_scheduler_iff_witness :
    onEnd (⟨.strings ["./src/e.ts"], some ".mjs", 42⟩ : BuildOptions Nat)
        [⟨"./u.js", "u"⟩] =
      some ⟨.specs [⟨"./u.js", "u"⟩], some ".mjs", 42⟩ ∧
    onEnd (⟨.strings ["./src/e.ts"], some ".mjs", 42⟩ : BuildOptions Nat) [] = none := by
  constructor
  · exact (pass_scheduler_iff ⟨.strings ["./src/e.ts"], some ".mjs", 42⟩
      [⟨"./u.js", "u"⟩]).1 (by simp)
  · exact (pass_scheduler_iff (⟨.strings ["./src/e.ts"], some ".mjs", 42⟩ : BuildOptions Nat)
      []).2 rfl

theorem supported_of_not_unsupported {k : String}
    (h : ¬(k ≠ "import-statement" ∧ k ≠ "dynamic-import")) :
    k = "import-statement" ∨ k = "dynamic-import" := by
  rcases not_and_or.mp h with h1 | h1
  · exact Or.inl (not_not.mp h1)
  · exact Or.inr (not_not.mp h1)

theorem reachable_root_none_seen_nil {cfg : Config} {st : SharedState}
    (h : ReachableShared cfg st) : st.root = none → st.seenFiles = [] := by
  induction h with
  | init => intro _; rfl
  | step st ps args h hok ih =>
    by_cases hk : args.kind = "entry-point"
    · unfold onResolve
      rw [if_pos hk]
      by_cases hr : st.root = none
      · simp [hr]
      · simp only [hr, if_false]
        intro hnone
        exact hnone.elim
    · by_cases hk2 : args.kind ≠ "import-statement" ∧ args.kind ≠ "dynamic-import"
      · obtain ⟨r0, hr0⟩ := hok
        unfold onResolve at hr0
        rw [if_neg hk, if_pos hk2] at hr0
        simp at hr0
      · by_cases hseen : resolvedFile cfg ps args ∈ st.seenFiles
        · unfold onResolve
          rw [if_neg hk, if_neg hk2, if_pos hseen]
          intro hnone
          exact ih hnone
        · cases hroot : st.root with
          | none =>
            obtain ⟨r0, hr0⟩ := hok
            unfold onResolve at hr0
            rw [if_neg hk, if_neg hk2, if_neg hseen, hroot] at hr0
            simp at hr0
          | some r =>
            unfold onResolve
            rw [if_neg hk, if_neg hk2, if_neg hseen, hroot]
            cases hred : reducePathLeft
                (pathDirname (pathRelative r (resolvedFile cfg ps args)))
                (cfg.numLevelsInputPathToDrop.getD 0) with
            | error e =>
              simp only [hred]
              intro hnone
              simp [addSeen, hroot] at hnone
            | ok relInputDir =>
              simp only [hred]
              intro hnone
              simp [addSeen, hroot] at hnone

/-- Claim C9: in the sequential hook protocol, a supported non-entry import
resolution reached before any entry-point resolution has captured
the root throws the root-undetermined error, and the error aborts the
pass (the remaining events of the pass are not processed). -/
theorem import_before_root_fails (cfg : Config) (st : SharedState) (ps : PassState)
    (args : ResolveArgs) (rest : List Event)
    (hreach : ReachableShared cfg st)
    (hroot : st.root = none)
    (hkind : args.kind = "import-statement" ∨ args.kind = "dynamic-import") :
    (onResolve cfg st ps args).result = .error .rootUndetermined ∧
      (runPass cfg st ps (.resolve args :: rest)).err = some .rootUndetermined := by
  obtain ⟨h1, h2⟩ := kind_ne_of_supported hkind
  have hnil : st.seenFiles = [] := reachable_root_none_seen_nil hreach hroot
  have hseen : resolvedFile cfg ps args ∉ st.seenFiles := by
    rw [hnil]
    exact List.not_mem_nil _
  have hres : (onResolve cfg st ps args).result = .error .rootUndetermined := by
    unfold onResolve
    rw [if_neg h1, if_neg h2, if_neg hseen, hroot]
  refine ⟨hres, ?_⟩
  simp only [runPass]
  rw [hres]

/-- Witness for C9: the very first event of a session being a static import
fails with the root-undetermined error and stops the pass. -/
theorem import_before_root_fails_witness :
    (onResolve ⟨none, false, none⟩ initShared freshPass
        ⟨"import-statement", "./u.js", "/r/e.ts", "/r"⟩).result =
      .error .rootUndetermined ∧
    (runPass ⟨none, false, none⟩ initShared freshPass
        [.resolve ⟨"import-statement", "./u.js", "/r/e.ts", "/r"⟩,
          .resolve ⟨"entry-point", "./e.ts", "", "/r"⟩]).err =
      some .rootUndetermined := by
  exact import_before_root_fails ⟨none, false, none⟩ initShared freshPass
    ⟨"import-statement", "./u.js", "/r/e.ts", "/r"⟩
    [.resolve ⟨"entry-point", "./e.ts", "", "/r"⟩]
    ReachableShared.init rfl (Or.inl rfl)

theorem onResolve_step_cases (cfg : Config) (st : SharedState) (ps : PassState)
    (args : ResolveArgs) :
    ((onResolve cfg st ps args).pushed = [] ∧
      ((onResolve cfg st ps args).shared.seenFiles = st.seenFiles ∨
        ∃ f, (onResolve cfg st ps args).shared.seenFiles = st.seenFiles ++ [f])) ∨
    (∃ f s, (onResolve cfg st ps args).pushed = [(f, s)] ∧ f ∉ st.seenFiles ∧
      (onResolve cfg st ps args).shared.seenFiles = st.seenFiles ++ [f]) := by
  by_cases hk : args.kind = "entry-point"
  · unfold onResolve
    rw [if_pos hk]
    left
    refine ⟨rfl, Or.inl ?_⟩
    by_cases hr : st.root = none
    all_goals simp [hr]
  · by_cases hk2 : args.kind ≠ "import-statement" ∧ args.kind ≠ "dynamic-import"
    · unfold onResolve
      rw [if_neg hk, if_pos hk2]
      exact Or.inl ⟨rfl, Or.inl rfl⟩
    · by_cases hseen : resolvedFile cfg ps args ∈ st.seenFiles
      · unfold onResolve
        rw [if_neg hk, if_neg hk2, if_pos hseen]
        exact Or.inl ⟨rfl, Or.inl rfl⟩
      · unfold onResolve
        rw [if_neg hk, if_neg hk2, if_neg hseen]
        cases hroot : st.root with
        | none => exact Or.inl ⟨rfl, Or.inr ⟨_, rfl⟩⟩
        | some r =>
          cases hred : reducePathLeft
              (pathDirname (pathRelative r (resolvedFile cfg ps args)))
              (cfg.numLevelsInputPathToDrop.getD 0) with
          | error e =>
            simp only [hred]
            exact Or.inl ⟨trivial, Or.inr ⟨_, rfl⟩⟩
          | ok relInputDir =>
            simp only [hred]
            exact Or.inr ⟨_, _, rfl, hseen, rfl⟩

theorem runPass_trace_inv (cfg : Config) :
    ∀ (evs : List Event) (st : SharedState) (ps : PassState),
      (∃ t, (runPass cfg st ps evs).shared.seenFiles = st.seenFiles ++ t) ∧
      (∀ f, f ∈ (runPass cfg st ps evs).trace.map Prod.fst →
        f ∉ st.seenFiles ∧ f ∈ (runPass cfg st ps evs).shared.seenFiles) ∧
      ((runPass cfg st ps evs).trace.map Prod.fst).Nodup := by
  intro evs
  induction evs with
  | nil =>
    intro st ps
    refine ⟨⟨[], by simp [runPass]⟩, ?_, ?_⟩
    · intro f hf
      simp [runPass] at hf
    · simp [runPass]
  | cons e rest ih =>
    intro st ps
    cases e with
    | load fp imports =>
      have heq : runPass cfg st ps (.load fp imports :: rest) =
          runPass cfg st (loadStep cfg fp imports ps) rest := by
        simp [runPass]
      rw [heq]
      exact ih st (loadStep cfg fp imports ps)
    | resolve args =>
      have hstep := onResolve_step_cases cfg st ps args
      cases hres : (onResolve cfg st ps args).result with
      | error e =>
        have heq : runPass cfg st ps (.resolve args :: rest) =
            { shared := (onResolve cfg st ps args).shared,
              pass := (onResolve cfg st ps args).pass,
              trace := (onResolve cfg st ps args).pushed, err := some e } := by
          simp only [runPass]
          rw [hres]
        rw [heq]
        rcases hstep with ⟨hp, hs⟩ | ⟨f, s, hp, hf, hs⟩
        · refine ⟨?_, ?_, ?_⟩
          · rcases hs with hs | ⟨f, hs⟩
            · exact ⟨[], by simp [hs]⟩
            · exact ⟨[f], hs⟩
          · intro f hmem
            rw [hp] at hmem
            simp at hmem
          · rw [hp]
            simp
        · refine ⟨⟨[f], hs⟩, ?_, ?_⟩
          · intro g hmem
            rw [hp] at hmem
            simp at hmem
            subst hmem
            refine ⟨hf, ?_⟩
            rw [hs]
            simp
          · rw [hp]
            simp
      | ok rr =>
        have heq : runPass cfg st ps (.resolve args :: rest) =
            { shared := (runPass cfg (onResolve cfg st ps args).shared
                (onResolve cfg st ps args).pass rest).shared,
              pass := (runPass cfg (onResolve cfg st ps args).shared
                (onResolve cfg st ps args).pass rest).pass,
              trace := (onResolve cfg st ps args).pushed ++
                (runPass cfg (onResolve cfg st ps args).shared
                  (onResolve cfg st ps args).pass rest).trace,
              err := (runPass cfg (onResolve cfg st ps args).shared
                (onResolve cfg st ps args).pass rest).err } := by
          simp only [runPass]
          rw [hres]
        rw [heq]
        obtain ⟨⟨t1, ht1⟩, hmem1, hnd1⟩ :=
          ih (onResolve cfg st ps args).shared (onResolve cfg st ps args).pass
        rcases hstep with ⟨hp, hs⟩ | ⟨f, s, hp, hf, hs⟩
        · have hsub : ∀ g, g ∈ st.seenFiles →
              g ∈ (onResolve cfg st ps args).shared.seenFiles := by
            intro g hg
            rcases hs with hs | ⟨f0, hs⟩
            · rw [hs]; exact hg
            · rw [hs]; exact List.mem_append_left _ hg
          refine ⟨?_, ?_, ?_⟩
          · rcases hs with hs | ⟨f0, hs⟩
            · exact ⟨t1, by rw [ht1, hs]⟩
            · exact ⟨[f0] ++ t1, by rw [ht1, hs, List.append_assoc]⟩
          · intro g hmem
            rw [hp, List.nil_append] at hmem
            obtain ⟨hg1, hg2⟩ := hmem1 g hmem
            exact ⟨fun hgst => hg1 (hsub g hgst), hg2⟩
          · rw [hp, List.nil_append]
            exact hnd1
        · refine ⟨?_, ?_, ?_⟩
          · exact ⟨[f] ++ t1, by rw [ht1, hs, List.append_assoc]⟩
          · intro g hmem
            rw [hp] at hmem
            simp only [List.map_cons, List.map, List.mem_cons] at hmem
            rcases hmem with hg | hg
            · subst hg
              refine ⟨hf, ?_⟩
              rw [ht1, hs]
              exact List.mem_append_left _ (List.mem_append_right _ (List.mem_singleton.mpr rfl))
            · obtain ⟨hg1, hg2⟩ := hmem1 g hg
              refine ⟨fun hgst => hg1 ?_, hg2⟩
              rw [hs]
              exact List.mem_append_left _ hgst
          · rw [hp]
            simp only [List.map_cons, List.map, List.nodup_cons]
            refine ⟨?_, hnd1⟩
            intro hfin
            obtain ⟨hg1, _⟩ := hmem1 f hfin
            apply hg1
            rw [hs]
            exact List.mem_append_right _ (List.mem_singleton.mpr rfl)

theorem runSession_trace_inv (cfg : Config) :
    ∀ (passes : List (List Event)) (st : SharedState),
      (∃ t, (runSession cfg st passes).shared.seenFiles = st.seenFiles ++ t) ∧
      (∀ f, f ∈ (runSession cfg st passes).trace.map Prod.fst →
        f ∉ st.seenFiles ∧ f ∈ (runSession cfg st passes).shared.seenFiles) ∧
      ((runSession cfg st passes).trace.map Prod.fst).Nodup := by
  intro passes
  induction passes with
  | nil =>
    intro st
    refine ⟨⟨[], by simp [runSession]⟩, ?_, ?_⟩
    · intro f hf
      simp [runSession] at hf
    · simp [runSession]
  | cons evs rest ih =>
    intro st
    obtain ⟨⟨t1, ht1⟩, hmem1, hnd1⟩ := runPass_trace_inv cfg evs st freshPass
    cases herr : (runPass cfg st freshPass evs).err with
    | some e =>
      have heq : runSession cfg st (evs :: rest) =
          { shared := (runPass cfg st freshPass evs).shared,
            passes := [(runPass cfg st freshPass evs).pass],
            trace := (runPass cfg st freshPass evs).trace, err := some e } := by
        simp only [runSession]
        rw [herr]
      rw [heq]
      exact ⟨⟨t1, ht1⟩, hmem1, hnd1⟩
    | none =>
      have heq : runSession cfg st (evs :: rest) =
          { shared := (runSession cfg (runPass cfg st freshPass evs).shared rest).shared,
            passes := (runPass cfg st freshPass evs).pass ::
              (runSession cfg (runPass cfg st freshPass evs).shared rest).passes,
            trace := (runPass cfg st freshPass evs).trace ++
              (runSession cfg (runPass cfg st freshPass evs).shared rest).trace,
            err := (runSession cfg (runPass cfg st freshPass evs).shared rest).err } := by
        simp only [runSession]
        rw [herr]
      rw [heq]
      obtain ⟨⟨t2, ht2⟩, hmem2, hnd2⟩ := ih (runPass cfg st freshPass evs).shared
      refine ⟨⟨t1 ++ t2, by rw [ht2, ht1, List.append_assoc]⟩, ?_, ?_⟩
      · intro g hmem
        rw [List.map_append, List.mem_append] at hmem
        rcases hmem with hg | hg
        · obtain ⟨hg1, hg2⟩ := hmem1 g hg
          refine ⟨hg1, ?_⟩
          rw [ht2]
          exact List.mem_append_left _ hg2
        · obtain ⟨hg1, hg2⟩ := hmem2 g hg
          refine ⟨fun hgst => hg1 ?_, hg2⟩
          rw [ht1]
          exact List.mem_append_left _ hgst
      · rw [List.map_append]
        refine List.Nodup.append hnd1 hnd2 ?_
        intro g hg1 hg2
        obtain ⟨_, hgin⟩ := hmem1 g hg1
        obtain ⟨hgout, _⟩ := hmem2 g hg2
        exact hgout hgin

theorem reducePathLeft_ok_exists (p : String) (n : Int) (hn : 0 ≤ n) :
    ∃ s, reducePathLeft p n = .ok s := by
  unfold reducePathLeft
  by_cases h0 : n = 0
  · simp [h0]
  · have hneg : ¬(n < 0) := by omega
    simp only [h0, hneg, if_false]
    by_cases habs : (startsWithChar p '/' || startsWithChar p '.') = true
    all_goals simp [habs]

/-- Claim C1: every supported non-entry resolution that completes without
throwing returns the external marker (shown whenever a root is captured
and the configured drop count is non-negative, the operating regime in
which the pass completes), and across a whole session — any number of
build invocations over the shared `seenFiles` — each module identity is
pushed onto a pending batch at most once, also when the same module is
resolved from different importers or in different passes. -/
theorem module_scheduled_at_most_once (cfg : Config) (passes : List (List Event))
    (st : SharedState) (ps : PassState) (args : ResolveArgs) :
    ((runSession cfg initShared passes).trace.map Prod.fst).Nodup ∧
    ((args.kind = "import-statement" ∨ args.kind = "dynamic-import") →
      (∃ r, st.root = some r) → 0 ≤ cfg.numLevelsInputPathToDrop.getD 0 →
      (onResolve cfg st ps args).result = .ok (some .externalTrue)) := by
  constructor
  · exact (runSession_trace_inv cfg passes initShared).2.2
  · intro hkind ⟨r, hroot⟩ hdrop
    obtain ⟨h1, h2⟩ := kind_ne_of_supported hkind
    unfold onResolve
    rw [if_neg h1, if_neg h2]
    by_cases hseen : resolvedFile cfg ps args ∈ st.seenFiles
    · rw [if_pos hseen]
    · rw [if_neg hseen, hroot]
      obtain ⟨s, hred⟩ := reducePathLeft_ok_exists
        (pathDirname (pathRelative r (resolvedFile cfg ps args)))
        (cfg.numLevelsInputPathToDrop.getD 0) hdrop
      simp only [hred]

/-- Witness for C1: a two-pass session in which `/r/src/util.js` is imported
both from the entry module and (in the next pass, via `../`)
from `/r/src/lib/helpers.js`; it is scheduled exactly once. -/
theorem module_scheduled_at_most_once_witness :
    ((runSession ⟨some 1, false, none⟩ initShared
        [[.resolve ⟨"entry-point", "./src/index.ts", "", "/r"⟩,
          .resolve ⟨"import-statement", "./util.js", "/r/src/index.ts", "/r/src"⟩,
          .resolve ⟨"import-statement", "./lib/helpers.js", "/r/src/index.ts", "/r/src"⟩],
          [.resolve ⟨"import-statement", "../util.js", "/r/src/lib/helpers.js",
            "/r/src/lib"⟩]]).trace.map Prod.fst).Nodup ∧
    (runSession ⟨some 1, false, none⟩ initShared
        [[.resolve ⟨"entry-point", "./src/index.ts", "", "/r"⟩,
          .resolve ⟨"import-statement", "./util.js", "/r/src/index.ts", "/r/src"⟩,
          .resolve ⟨"import-statement", "./lib/helpers.js", "/r/src/index.ts", "/r/src"⟩],
          [.resolve ⟨"import-statement", "../util.js", "/r/src/lib/helpers.js",
            "/r/src/lib"⟩]]).trace.map Prod.fst =
      ["/r/src/util.js", "/r/src/lib/helpers.js"] ∧
    (onResolve ⟨some 1, false, none⟩ ⟨[], some "/r"⟩ freshPass
        ⟨"import-statement", "./u.js", "/r/e.ts", "/r"⟩).result =
      .ok (some .externalTrue) := by
  refine ⟨(module_scheduled_at_most_once ⟨some 1, false, none⟩
      [[.resolve ⟨"entry-point", "./src/index.ts", "", "/r"⟩,
        .resolve ⟨"import-statement", "./util.js", "/r/src/index.ts", "/r/src"⟩,
        .resolve ⟨"import-statement", "./lib/helpers.js", "/r/src/index.ts", "/r/src"⟩],
        [.resolve ⟨"import-statement", "../util.js", "/r/src/lib/helpers.js",
          "/r/src/lib"⟩]]
      ⟨[], some "/r"⟩ freshPass
      ⟨"import-statement", "./u.js", "/r/e.ts", "/r"⟩).1, by decide,
    (module_scheduled_at_most_once ⟨some 1, false, none⟩ []
      ⟨[], some "/r"⟩ freshPass
      ⟨"import-statement", "./u.js", "/r/e.ts", "/r"⟩).2
      (Or.inl rfl) ⟨"/r", rfl⟩ (by decide)⟩

theorem jsSuffix_iff (s : String) :
    jsSuffix s = true ↔ ∃ t, s.data = t ++ ['.', 'j', 's'] := by
  constructor
  · intro h
    unfold jsSuffix at h
    cases hrev : s.data.reverse with
    | nil => rw [hrev] at h; simp at h
    | cons c1 l1 =>
      cases l1 with
      | nil => rw [hrev] at h; simp at h
      | cons c2 l2 =>
        cases l2 with
        | nil => rw [hrev] at h; simp at h
        | cons c3 r =>
          rw [hrev] at h
          simp only [Bool.and_eq_true, beq_iff_eq] at h
          obtain ⟨⟨h1, h2⟩, h3⟩ := h
          subst h1
          subst h2
          subst h3
          refine ⟨r.reverse, ?_⟩
          have hs := congrArg List.reverse hrev
          rw [List.reverse_reverse] at hs
          rw [hs]
          simp
  · intro hex
    obtain ⟨t, ht⟩ := hex
    unfold jsSuffix
    have hrev : s.data.reverse = 's' :: 'j' :: '.' :: t.reverse := by
      rw [ht, List.reverse_append]
      rfl
    rw [hrev]
    simp

theorem take_of_js {s : String} {t : List Char} (ht : s.data = t ++ ['.', 'j', 's']) :
    s.data.take (s.data.length - 3) = t := by
  rw [ht, List.length_append]
  have h3 : t.length + ['.', 'j', 's'].length - 3 = t.length := by simp
  rw [h3]
  exact List.take_left t _

theorem replaceJsExt_data {s : String} (d : String) (h : jsSuffix s = true) :
    (replaceJsExt s d).data = s.data.take (s.data.length - 3) ++ d.data := by
  unfold replaceJsExt
  rw [if_pos h]

theorem replaceJsExt_inj {a b : String} (d : String) (ha : jsSuffix a = true)
    (hb : jsSuffix b = true) (h : replaceJsExt a d = replaceJsExt b d) : a = b := by
  obtain ⟨ta, hta⟩ := (jsSuffix_iff a).mp ha
  obtain ⟨tb, htb⟩ := (jsSuffix_iff b).mp hb
  have hd : (replaceJsExt a d).data = (replaceJsExt b d).data := by rw [h]
  rw [replaceJsExt_data d ha, replaceJsExt_data d hb, take_of_js hta, take_of_js htb] at hd
  have hts : ta = tb := List.append_cancel_right hd
  apply String.ext
  rw [hta, htb, hts]

theorem strAppend_left_cancel {a x y : String} (h : a ++ x = a ++ y) : x = y := by
  apply String.ext
  have hd : (a ++ x).data = (a ++ y).data := by rw [h]
  rw [String.data_append, String.data_append] at hd
  exact List.append_cancel_left hd

theorem find?_map_replace_ne {k v k0 : String} (hne : k0 ≠ k) :
    ∀ m : List (String × String),
      List.find? (fun p => decide (p.1 = k0))
        (m.map (fun p => if p.1 = k then (k, v) else p)) =
        List.find? (fun p => decide (p.1 = k0)) m := by
  intro m
  induction m with
  | nil => rfl
  | cons p m ih =>
    simp only [List.map_cons]
    rw [List.find?_cons, List.find?_cons]
    by_cases hp : p.1 = k
    · rw [if_pos hp]
      have hc1 : (decide ((k, v).1 = k0)) = false := by
        simp only [decide_eq_false_iff_not]
        exact fun he => hne he.symm
      have hc2 : (decide (p.1 = k0)) = false := by
        simp only [decide_eq_false_iff_not]
        rw [hp]
        exact fun he => hne he.symm
      rw [hc1, hc2]
      exact ih
    · rw [if_neg hp]
      cases hc : decide (p.1 = k0) with
      | true => rfl
      | false => exact ih

theorem find?_map_replace_self {k v : String} :
    ∀ m : List (String × String), m.any (fun p => decide (p.1 = k)) = true →
      List.find? (fun p => decide (p.1 = k))
        (m.map (fun p => if p.1 = k then (k, v) else p)) = some (k, v) := by
  intro m
  induction m with
  | nil =>
    intro hany
    simp at hany
  | cons p m ih =>
    intro hany
    rw [List.any_cons] at hany
    simp only [List.map_cons]
    rw [List.find?_cons]
    by_cases hp : p.1 = k
    · rw [if_pos hp]
      have hc : (decide ((k, v).1 = k)) = true := by simp
      rw [hc]
    · rw [if_neg hp]
      have hc : (decide (p.1 = k)) = false := by
        simp only [decide_eq_false_iff_not]
        exact hp
      rw [hc]
      have hany2 : m.any (fun p => decide (p.1 = k)) = true := by
        rcases Bool.or_eq_true_iff.mp hany with h | h
        · exact absurd (of_decide_eq_true h) hp
        · exact h
      exact ih hany2

theorem mapGet_set_of_ne {m : List (String × String)} {k v k0 : String} (hne : k0 ≠ k) :
    mapGet (mapSet m k v) k0 = mapGet m k0 := by
  unfold mapSet
  split
  · unfold mapGet
    rw [find?_map_replace_ne hne]
  · unfold mapGet
    rw [List.find?_append]
    have hone : List.find? (fun p => decide (p.1 = k0)) [(k, v)] = none := by
      rw [List.find?_cons]
      have hc : (decide ((k, v).1 = k0)) = false := by
        simp only [decide_eq_false_iff_not]
        exact fun he => hne he.symm
      rw [hc]
      rfl
    rw [hone]
    cases hf : List.find? (fun p => decide (p.1 = k0)) m with
    | none => rfl
    | some p => rfl

theorem mapGet_set_self (m : List (String × String)) (k v : String) :
    mapGet (mapSet m k v) k = some v := by
  unfold mapSet
  by_cases hany : m.any (fun p => decide (p.1 = k)) = true
  · rw [if_pos hany]
    unfold mapGet
    rw [find?_map_replace_self m hany]
    rfl
  · rw [if_neg hany]
    unfold mapGet
    rw [List.find?_append]
    have hnone : List.find? (fun p => decide (p.1 = k)) m = none := by
      rw [List.find?_eq_none]
      intro p hp
      simp only [decide_eq_true_eq]
      intro hpk
      exact hany (List.any_eq_true.mpr ⟨p, hp, by simp [hpk]⟩)
    rw [hnone]
    rw [List.find?_cons]
    have hc : (decide ((k, v).1 = k)) = true := by simp
    rw [hc]
    rfl

theorem mapGet_set (m : List (String × String)) (k v k0 : String) :
    mapGet (mapSet m k v) k0 = if k0 = k then some v else mapGet m k0 := by
  by_cases h : k0 = k
  · subst h
    rw [if_pos rfl]
    exact mapGet_set_self m k0 v
  · rw [if_neg h]
    exact mapGet_set_of_ne h

theorem mapSet_mem {m : List (String × String)} {k v : String} {q : String × String}
    (h : q ∈ mapSet m k v) : q ∈ m ∨ q = (k, v) := by
  unfold mapSet at h
  split at h
  · obtain ⟨p, hp, hq⟩ := List.mem_map.mp h
    by_cases hpk : p.1 = k
    · rw [if_pos hpk] at hq
      exact Or.inr hq.symm
    · rw [if_neg hpk] at hq
      exact Or.inl (hq ▸ hp)
  · rcases List.mem_append.mp h with h1 | h1
    · exact Or.inl h1
    · exact Or.inr (List.mem_singleton.mp h1)

theorem recordMap_cons (d fp g : String) (rest : List String) (m : List (String × String)) :
    recordMap d fp (g :: rest) m =
      recordMap d fp rest (mapSet m (fp ++ "|" ++ replaceJsExt g d) g) := rfl

theorem recordMap_untouched (d fp : String) :
    ∀ (imports : List String) (m : List (String × String)) (k0 : String),
      (∀ g ∈ imports, fp ++ "|" ++ replaceJsExt g d ≠ k0) →
      mapGet (recordMap d fp imports m) k0 = mapGet m k0 := by
  intro imports
  induction imports with
  | nil => intro m k0 _; rfl
  | cons g rest ih =>
    intro m k0 h
    rw [recordMap_cons, ih _ _ (fun g2 hg2 => h g2 (List.mem_cons_of_mem _ hg2))]
    exact mapGet_set_of_ne (fun he => h g (List.mem_cons_self g rest) he.symm)

theorem recordMap_lookup (d fp : String) :
    ∀ (imports : List String) (m : List (String × String)) (f : String), f ∈ imports →
      (∀ g ∈ imports, jsSuffix g = true) →
      mapGet (recordMap d fp imports m) (fp ++ "|" ++ replaceJsExt f d) = some f := by
  intro imports
  induction imports with
  | nil =>
    intro m f hf _
    exact absurd hf (List.not_mem_nil f)
  | cons g rest ih =>
    intro m f hf hall
    rw [recordMap_cons]
    by_cases hfr : f ∈ rest
    · exact ih _ f hfr (fun g2 hg2 => hall g2 (List.mem_cons_of_mem _ hg2))
    · have hfg : f = g := by
        rcases List.mem_cons.mp hf with h | h
        · exact h
        · exact absurd h hfr
      subst hfg
      have huntouched : ∀ g2 ∈ rest,
          fp ++ "|" ++ replaceJsExt g2 d ≠ fp ++ "|" ++ replaceJsExt f d := by
        intro g2 hg2 hkey
        have hrepl : replaceJsExt g2 d = replaceJsExt f d := strAppend_left_cancel hkey
        have hg2f : g2 = f := replaceJsExt_inj d
          (hall g2 (List.mem_cons_of_mem _ hg2)) (hall f (List.mem_cons_self f rest)) hrepl
        exact hfr (hg2f ▸ hg2)
      rw [recordMap_untouched d fp rest _ _ huntouched]
      exact mapGet_set_self m _ f

/-- Claim C5: with extension rewriting enabled, a rewritten specifier
recorded during the load of a file round-trips — resolving it later with
that file as importer computes the same absolute identity (join of the
resolve directory and specifier) as resolving the original, un-rewritten
specifier would: the interceptor's reverse lookup undoes the load-time
rewrite.  The specifiers matched by `IMPORT_PATTERN` always end in
`".js"` (its second capture group is anchored on `(\x2E js)`), which is the
`jsSuffix` hypothesis. -/
theorem rewrite_roundtrip (cfg : Config) (d fp resolveDir kind f : String)
    (imports : List String) (ps : PassState)
    (htr : cfg.transformImportExtensions = true)
    (hout : cfg.outExtensionJs = some d)
    (hne : d ≠ ".js")
    (hall : ∀ g ∈ imports, jsSuffix g = true)
    (hf : f ∈ imports) :
    mapGet (loadStep cfg fp imports ps).rewrittenImports
        (fp ++ "|" ++ replaceJsExt f d) = some f ∧
    resolvedFile cfg (loadStep cfg fp imports ps)
        ⟨kind, replaceJsExt f d, fp, resolveDir⟩ = pathJoin resolveDir f := by
  have hload : (loadStep cfg fp imports ps).rewrittenImports =
      recordMap d fp imports ps.rewrittenImports := by
    unfold loadStep
    simp only [hout]
    rw [if_pos ⟨htr, hne⟩]
  have hget : mapGet (loadStep cfg fp imports ps).rewrittenImports
      (fp ++ "|" ++ replaceJsExt f d) = some f := by
    rw [hload]
    exact recordMap_lookup d fp imports ps.rewrittenImports f hf hall
  refine ⟨hget, ?_⟩
  unfold resolvedFile effectivePath
  simp only [htr, if_true]
  rw [hget]

/-- Witness for C5: loading `/r/e.ts` containing `import "./u.js"` with
`outExtension` rewriting `.js` to `.mjs` records the reverse mapping, and
resolving `./u.mjs` from `/r/e.ts` yields the identity `/r/u.js` that the
original specifier denotes. -/
theorem rewrite_roundtrip_witness :
    mapGet (loadStep ⟨none, true, some ".mjs"⟩ "/r/e.ts" ["./u.js"]
        freshPass).rewrittenImports ("/r/e.ts" ++ "|" ++ replaceJsExt "./u.js" ".mjs") =
      some "./u.js" ∧
    resolvedFile ⟨none, true, some ".mjs"⟩
        (loadStep ⟨none, true, some ".mjs"⟩ "/r/e.ts" ["./u.js"] freshPass)
        ⟨"import-statement", replaceJsExt "./u.js" ".mjs", "/r/e.ts", "/r"⟩ =
      pathJoin "/r" "./u.js" ∧
    pathJoin "/r" "./u.js" = "/r/u.js" ∧ replaceJsExt "./u.js" ".mjs" = "./u.mjs" := by
  have h := rewrite_roundtrip ⟨none, true, some ".mjs"⟩ ".mjs" "/r/e.ts" "/r"
    "import-statement" "./u.js" ["./u.js"] freshPass rfl rfl (by decide)
    (by intro g hg; rw [List.mem_singleton.mp hg]; decide) (List.mem_singleton.mpr rfl)
  exact ⟨h.1, h.2, by decide, by decide⟩

theorem takeWhile_eq_self_of_all {α : Type} {p : α → Bool} :
    ∀ xs : List α, (∀ a ∈ xs, p a = true) → xs.takeWhile p = xs := by
  intro xs
  induction xs with
  | nil => intro _; rfl
  | cons a l ih =>
    intro h
    rw [List.takeWhile_cons, h a (List.mem_cons_self a l)]
    rw [ih (fun b hb => h b (List.mem_cons_of_mem a hb))]
    rfl

theorem afterLastPipe_append (x r : List Char) (hr : '|' ∉ r) :
    afterLastPipe (x ++ '|' :: r) = r := by
  unfold afterLastPipe
  have hrev : (x ++ '|' :: r).reverse = r.reverse ++ '|' :: x.reverse := by
    rw [List.reverse_append, List.reverse_cons, List.append_assoc]
    rfl
  rw [hrev]
  have hall : ∀ a ∈ r.reverse, (fun c => decide (c ≠ '|')) a = true := by
    intro a ha
    simp only [decide_eq_true_eq]
    intro he
    subst he
    exact hr (List.mem_reverse.mp ha)
  rw [List.takeWhile_append, takeWhile_eq_self_of_all r.reverse hall, if_pos rfl]
  have hstop : List.takeWhile (fun c => decide (c ≠ '|')) ('|' :: x.reverse) = [] := by
    have hc : (decide (('|' : Char) ≠ '|')) = false := by decide
    rw [List.takeWhile_cons, hc]
    rfl
  rw [hstop, List.append_nil, List.reverse_reverse]

theorem replaceJsExt_pipe_free {g : String} (d : String) (hg : jsSuffix g = true)
    (hgp : '|' ∉ g.data) (hdp : '|' ∉ d.data) : '|' ∉ (replaceJsExt g d).data := by
  rw [replaceJsExt_data d hg]
  intro hmem
  rcases List.mem_append.mp hmem with h | h
  · exact hgp (List.mem_of_mem_take h)
  · exact hdp h

theorem key_data (fp x : String) : (fp ++ "|" ++ x).data = fp.data ++ '|' :: x.data := by
  rw [String.data_append, String.data_append, List.append_assoc]
  rfl

theorem mapGet_mem {m : List (String × String)} {k v : String}
    (h : mapGet m k = some v) : (k, v) ∈ m := by
  unfold mapGet at h
  cases hf : List.find? (fun p => decide (p.1 = k)) m with
  | none =>
    rw [hf] at h
    simp at h
  | some p =>
    obtain ⟨a, b⟩ := p
    rw [hf] at h
    simp at h
    have hpk : a = k := by
      have hd := List.find?_some hf
      simpa using hd
    have hmem := List.mem_of_find?_eq_some hf
    subst hpk
    subst h
    exact hmem

theorem mapGet_set_wf_stable {d : String} {m : List (String × String)}
    {k0 v0 fp g : String}
    (hwf : MapWF d m) (hg : jsSuffix g = true) (hgp : '|' ∉ g.data) (hdp : '|' ∉ d.data)
    (h : mapGet m k0 = some v0) :
    mapGet (mapSet m (fp ++ "|" ++ replaceJsExt g d) g) k0 = some v0 := by
  by_cases hk : k0 = fp ++ "|" ++ replaceJsExt g d
  · subst hk
    rw [mapGet_set_self]
    have hmem := mapGet_mem h
    obtain ⟨hjs, hvp, hal⟩ := hwf _ hmem
    rw [key_data] at hal
    rw [afterLastPipe_append _ _ (replaceJsExt_pipe_free d hg hgp hdp)] at hal
    have hre : replaceJsExt g d = replaceJsExt v0 d := String.ext hal
    have hgv : g = v0 := replaceJsExt_inj d hg hjs hre
    rw [hgv]
  · rw [mapGet_set_of_ne hk]
    exact h

theorem mapSet_wf {d : String} {m : List (String × String)} {fp g : String}
    (hwf : MapWF d m) (hg : jsSuffix g = true) (hgp : '|' ∉ g.data) (hdp : '|' ∉ d.data) :
    MapWF d (mapSet m (fp ++ "|" ++ replaceJsExt g d) g) := by
  intro p hp
  rcases mapSet_mem hp with h | h
  · exact hwf p h
  · subst h
    refine ⟨hg, hgp, ?_⟩
    rw [key_data]
    exact afterLastPipe_append _ _ (replaceJsExt_pipe_free d hg hgp hdp)

theorem recordMap_wf_stable {d : String} (fp : String) :
    ∀ (imports : List String) (m : List (String × String)),
      (∀ g ∈ imports, jsSuffix g = true ∧ '|' ∉ g.data) → '|' ∉ d.data → MapWF d m →
      MapWF d (recordMap d fp imports m) ∧
        ∀ k0 v0, mapGet m k0 = some v0 →
          mapGet (recordMap d fp imports m) k0 = some v0 := by
  intro imports
  induction imports with
  | nil =>
    intro m _ _ hwf
    exact ⟨hwf, fun _ _ h => h⟩
  | cons g rest ih =>
    intro m hall hdp hwf
    obtain ⟨hg, hgp⟩ := hall g (List.mem_cons_self g rest)
    have hwf2 := @mapSet_wf d m fp g hwf hg hgp hdp
    have hrest := ih (mapSet m (fp ++ "|" ++ replaceJsExt g d) g)
      (fun g2 hg2 => hall g2 (List.mem_cons_of_mem _ hg2)) hdp hwf2
    rw [recordMap_cons]
    exact ⟨hrest.1, fun k0 v0 h =>
      hrest.2 k0 v0 (mapGet_set_wf_stable hwf hg hgp hdp h)⟩

theorem loadStep_wf_stable (cfg : Config) (fp : String) (imports : List String)
    (ps : PassState)
    (hall : ∀ g ∈ imports, jsSuffix g = true ∧ '|' ∉ g.data)
    (hdp : ∀ d, cfg.outExtensionJs = some d → '|' ∉ d.data)
    (hwf : passMapWF cfg ps.rewrittenImports) :
    passMapWF cfg (loadStep cfg fp imports ps).rewrittenImports ∧
      ∀ k0 v0, mapGet ps.rewrittenImports k0 = some v0 →
        mapGet (loadStep cfg fp imports ps).rewrittenImports k0 = some v0 := by
  unfold loadStep
  cases hout : cfg.outExtensionJs with
  | none => exact ⟨hwf, fun _ _ h => h⟩
  | some d =>
    dsimp only
    by_cases hguard : cfg.transformImportExtensions = true ∧ d ≠ ".js"
    · rw [if_pos hguard]
      have hrec := recordMap_wf_stable fp imports ps.rewrittenImports hall
        (hdp d hout) (hwf d hout)
      constructor
      · intro d2 hd2
        rw [hout] at hd2
        injection hd2 with hd2
        subst hd2
        exact hrec.1
      · exact fun k0 v0 h => hrec.2 k0 v0 h
    · rw [if_neg hguard]
      exact ⟨hwf, fun _ _ h => h⟩

theorem onResolve_map_const (cfg : Config) (st : SharedState) (ps : PassState)
    (args : ResolveArgs) :
    (onResolve cfg st ps args).pass.rewrittenImports = ps.rewrittenImports := by
  unfold onResolve
  by_cases hk : args.kind = "entry-point"
  · rw [if_pos hk]
  · rw [if_neg hk]
    by_cases hk2 : args.kind ≠ "import-statement" ∧ args.kind ≠ "dynamic-import"
    · rw [if_pos hk2]
    · rw [if_neg hk2]
      by_cases hseen : resolvedFile cfg ps args ∈ st.seenFiles
      · rw [if_pos hseen]
      · rw [if_neg hseen]
        cases st.root with
        | none => rfl
        | some r =>
          dsimp only
          cases reducePathLeft (pathDirname (pathRelative r (resolvedFile cfg ps args)))
              (cfg.numLevelsInputPathToDrop.getD 0) with
          | error e => rfl
          | ok relInputDir => rfl

theorem runPass_map_persist (cfg : Config)
    (hdp : ∀ d, cfg.outExtensionJs = some d → '|' ∉ d.data) :
    ∀ (evs : List Event) (st : SharedState) (ps : PassState),
      eventsWF evs → passMapWF cfg ps.rewrittenImports →
      passMapWF cfg (runPass cfg st ps evs).pass.rewrittenImports ∧
        ∀ k v, mapGet ps.rewrittenImports k = some v →
          mapGet (runPass cfg st ps evs).pass.rewrittenImports k = some v := by
  intro evs
  induction evs with
  | nil =>
    intro st ps _ hwf
    exact ⟨hwf, fun _ _ h => h⟩
  | cons e rest ih =>
    intro st ps hev hwf
    have hevrest : eventsWF rest :=
      fun fp2 imp2 hm => hev fp2 imp2 (List.mem_cons_of_mem _ hm)
    cases e with
    | load fp imports =>
      have hallthis : ∀ g ∈ imports, jsSuffix g = true ∧ '|' ∉ g.data :=
        hev fp imports (List.mem_cons_self _ _)
      have hl := loadStep_wf_stable cfg fp imports ps hallthis hdp hwf
      have heq : runPass cfg st ps (.load fp imports :: rest) =
          runPass cfg st (loadStep cfg fp imports ps) rest := by
        simp [runPass]
      rw [heq]
      obtain ⟨hwf2, hst2⟩ := ih st (loadStep cfg fp imports ps) hevrest hl.1
      exact ⟨hwf2, fun k v h => hst2 k v (hl.2 k v h)⟩
    | resolve args =>
      have hmap := onResolve_map_const cfg st ps args
      cases hres : (onResolve cfg st ps args).result with
      | error e =>
        have heq : runPass cfg st ps (.resolve args :: rest) =
            { shared := (onResolve cfg st ps args).shared,
              pass := (onResolve cfg st ps args).pass,
              trace := (onResolve cfg st ps args).pushed, err := some e } := by
          simp only [runPass]
          rw [hres]
        rw [heq]
        constructor
        · rw [hmap]
          exact hwf
        · intro k v h
          rw [hmap]
          exact h
      | ok rr =>
        have heq : runPass cfg st ps (.resolve args :: rest) =
            { shared := (runPass cfg (onResolve cfg st ps args).shared
                (onResolve cfg st ps args).pass rest).shared,
              pass := (runPass cfg (onResolve cfg st ps args).shared
                (onResolve cfg st ps args).pass rest).pass,
              trace := (onResolve cfg st ps args).pushed ++
                (runPass cfg (onResolve cfg st ps args).shared
                  (onResolve cfg st ps args).pass rest).trace,
              err := (runPass cfg (onResolve cfg st ps args).shared
                (onResolve cfg st ps args).pass rest).err } := by
          simp only [runPass]
          rw [hres]
        rw [heq]
        have hwf2 : passMapWF cfg (onResolve cfg st ps args).pass.rewrittenImports := by
          rw [hmap]
          exact hwf
        obtain ⟨hwf3, hst3⟩ :=
          ih (onResolve cfg st ps args).shared (onResolve cfg st ps args).pass hevrest hwf2
        refine ⟨hwf3, fun k v h => hst3 k v ?_⟩
        rw [hmap]
        exact h

theorem runSession_head_pass (cfg : Config) (st : SharedState) (evs : List Event)
    (rest : List (List Event)) :
    (runSession cfg st (evs :: rest)).passes.head? =
      some (runPass cfg st freshPass evs).pass := by
  simp only [runSession]
  cases herr : (runPass cfg st freshPass evs).err with
  | some e => rfl
  | none => rfl

/-- Claim C2 (amended): the Specifier Rewrite Map is scoped to a single
build invocation, not shared across recursive sub-invocations — each
invocation's `setup` creates a fresh empty map (the
`runSession_head_pass`-shaped conjunct); within one invocation, once an
entry for a given (importer, rewritten-specifier) key has been recorded,
looking the key up returns the original specifier for the remainder of
that invocation.  The shape hypotheses (`eventsWF`, `passMapWF`, pipe-free
destination extension) hold for every map the plugin builds: recorded
specifiers are `IMPORT_PATTERN` matches ending in `".js"`, and `"|"` is
the reserved key separator. -/
theorem rewrite_map_invocation_scoped (cfg : Config) (st : SharedState)
    (ps : PassState) (evs : List Event) (k v : String)
    (hdp : ∀ d, cfg.outExtensionJs = some d → '|' ∉ d.data)
    (hev : eventsWF evs)
    (hwf : passMapWF cfg ps.rewrittenImports)
    (h : mapGet ps.rewrittenImports k = some v) :
    mapGet (runPass cfg st ps evs).pass.rewrittenImports k = some v ∧
      freshPass.rewrittenImports = [] ∧
      ∀ (st2 : SharedState) (evs2 : List Event) (rest : List (List Event)),
        (runSession cfg st2 (evs2 :: rest)).passes.head? =
          some (runPass cfg st2 freshPass evs2).pass := by
  refine ⟨(runPass_map_persist cfg hdp evs st ps hev hwf).2 k v h, rfl, ?_⟩
  intro st2 evs2 rest
  exact runSession_head_pass cfg st2 evs2 rest

/-- Witness for the amended C2: a map holding the recorded entry for
`./u.mjs` still returns `./u.js` after a further load and a resolution. -/
theorem rewrite_map_invocation_scoped_witness :
    mapGet (runPass ⟨none, true, some ".mjs"⟩ ⟨[], some "/r"⟩
        ⟨[], [("/r/e.ts|./u.mjs", "./u.js")]⟩
        [.load "/r/e.ts" ["./x.js"],
          .resolve ⟨"import-statement", "./u.mjs", "/r/e.ts", "/r"⟩]).pass.rewrittenImports
      "/r/e.ts|./u.mjs" = some "./u.js" := by
  have h := rewrite_map_invocation_scoped ⟨none, true, some ".mjs"⟩ ⟨[], some "/r"⟩
    ⟨[], [("/r/e.ts|./u.mjs", "./u.js")]⟩
    [.load "/r/e.ts" ["./x.js"],
      .resolve ⟨"import-statement", "./u.mjs", "/r/e.ts", "/r"⟩]
    "/r/e.ts|./u.mjs" "./u.js"
    (by
      intro d hd
      injection hd with hd
      subst hd
      decide)
    (by
      intro fp imports hm g hg
      simp only [List.mem_cons, List.mem_singleton] at hm
      rcases hm with hm | hm
      · injection hm with hm1 hm2
        subst hm1
        subst hm2
        simp only [List.mem_singleton] at hg
        subst hg
        exact ⟨by decide, by decide⟩
      · exact absurd hm (by simp))
    (by
      intro d hd
      injection hd with hd
      subst hd
      intro p hp
      simp only [List.mem_singleton] at hp
      subst hp
      refine ⟨by decide, by decide, by decide⟩)
    (by decide)
  exact h.1

/-- Counterexample for C2 as stated: in the session below the key
`"/r/e.ts|./u.mjs"` is recorded during a load of the first invocation
(first conjunct), yet the second invocation starts with an empty map
(second conjunct), so its resolution of `./u.mjs` from the same importer
`/r/e.ts` does not see the entry: it schedules the identity `/r/u.mjs`
(third conjunct) instead of the identity `/r/u.js` that substituting the
recorded original `./u.js` would have produced (fourth and fifth
conjuncts) — the lookup does not return the original for the lifetime of
the session. -/
theorem rewrite_map_not_session_shared :
    mapGet ((runSession ⟨none, true, some ".mjs"⟩ initShared
        [[.resolve ⟨"entry-point", "./e.ts", "", "/r"⟩, .load "/r/e.ts" ["./u.js"]],
          [.resolve ⟨"import-statement", "./u.mjs", "/r/e.ts", "/r"⟩]]).passes.headD
        freshPass).rewrittenImports "/r/e.ts|./u.mjs" = some "./u.js" ∧
    ((runSession ⟨none, true, some ".mjs"⟩ initShared
        [[.resolve ⟨"entry-point", "./e.ts", "", "/r"⟩, .load "/r/e.ts" ["./u.js"]],
          [.resolve ⟨"import-statement", "./u.mjs", "/r/e.ts", "/r"⟩]]).passes.getD 1
        freshPass).rewrittenImports = [] ∧
    (runSession ⟨none, true, some ".mjs"⟩ initShared
        [[.resolve ⟨"entry-point", "./e.ts", "", "/r"⟩, .load "/r/e.ts" ["./u.js"]],
          [.resolve ⟨"import-statement", "./u.mjs", "/r/e.ts", "/r"⟩]]).trace.map
        Prod.fst = ["/r/u.mjs"] ∧
    pathJoin "/r" "./u.js" = "/r/u.js" ∧ ("/r/u.mjs" : String) ≠ "/r/u.js" := by
  refine ⟨by decide, by decide, by decide, by decide, by decide⟩

end SingleModules
